import Mathlib

/-!
Verification development for the croner-wasm binding layer (src/src/lib.rs)
and the cron scheduling engine it exposes.  The binding code (option
marshalling, timestamp conversion, the next-runs loop, validate/new, the
has_seconds flag) is embedded directly from the Rust source.  The engine
itself (field grammar and parsing, the pattern model, the matcher, the
bounded occurrence search, canonical rendering) is not part of the
repository's sources, so it is modelled from the specification's component
design, as noted on each such definition.
-/

namespace CW

/-! ## List and text utilities -/

/-- Ascending run of naturals: `rangeGo n s = [s, s+1, ..., s+n-1]`. -/
def rangeGo : Nat → Nat → List Nat
  | 0, _ => []
  | n + 1, s => s :: rangeGo n (s + 1)

/-- Inclusive range `[lo, lo+1, ..., hi]` (empty when `hi < lo`). -/
def rangeList (lo hi : Nat) : List Nat :=
  rangeGo (hi + 1 - lo) lo

/-- Boolean list membership for naturals. -/
def memB (v : Nat) : List Nat → Bool
  | [] => false
  | x :: xs => x == v || memB v xs

/-- Insert a value into a strictly sorted list, keeping it sorted and duplicate-free. -/
def insertSorted (x : Nat) : List Nat → List Nat
  | [] => [x]
  | y :: ys =>
    if x < y then x :: y :: ys
    else if x = y then y :: ys
    else y :: insertSorted x ys

/-- Insert every element of `xs` into the sorted accumulator `acc`. -/
def insertAll (xs acc : List Nat) : List Nat :=
  xs.foldr insertSorted acc

/-- Prepend a non-separator character onto the first piece of a split result. -/
def splitOnCharGlue (x : Char) (res : List (List Char)) : List (List Char) :=
  match res with
  | [] => [[x]]
  | h :: t => (x :: h) :: t

/-- Split a character list at every occurrence of `c` (pieces may be empty). -/
def splitOnChar (c : Char) : List Char → List (List Char)
  | [] => [[]]
  | x :: xs =>
    if x = c then [] :: splitOnChar c xs
    else splitOnCharGlue x (splitOnChar c xs)

/-- Attach a non-whitespace character to the whitespace split of the rest:
start a fresh token when the rest begins with whitespace or holds no token,
else extend the first token. -/
def splitWsGlue (c : Char) (cs : List Char) (res : List (List Char)) : List (List Char) :=
  match res, cs with
  | [], _ => [[c]]
  | _ :: _, [] => [[c]]
  | h :: t, c2 :: _ => if c2.isWhitespace then [c] :: h :: t else (c :: h) :: t

/-- Split a character list on runs of whitespace, dropping empty pieces.
Model of Rust's `str::split_whitespace`. -/
def splitWs : List Char → List (List Char)
  | [] => []
  | c :: cs =>
    if c.isWhitespace then splitWs cs else splitWsGlue c cs (splitWs cs)

/-- Join character lists with a single separator character. -/
def intercalateChar (c : Char) : List (List Char) → List Char
  | [] => []
  | [x] => x
  | x :: y :: xs => x ++ c :: intercalateChar c (y :: xs)

/-- Accumulating decimal parser over digit characters. -/
def parseNatAux : List Char → Nat → Option Nat
  | [], acc => some acc
  | c :: cs, acc =>
    if c.isDigit then parseNatAux cs (acc * 10 + (c.toNat - 48)) else none

/-- Parse a non-empty all-digit token as a natural number. -/
def parseNat : List Char → Option Nat
  | [] => none
  | c :: cs => parseNatAux (c :: cs) 0

/-- Decimal digit character for `n ≤ 9`. -/
def digitChar (n : Nat) : Char :=
  Char.ofNat (48 + n)

/-- Render a natural below 100 in decimal (all field values are below 100). -/
def renderNat (n : Nat) : List Char :=
  if n < 10 then [digitChar n] else [digitChar (n / 10), digitChar (n % 10)]

/-! ## Calendar model

Modelled from the spec: an Instant is "an absolute point in time with
second-level resolution, timezone-independent (UTC) ... always valid
proleptic-Gregorian" (spec section 3). -/

/-- Leap-year test of the proleptic Gregorian calendar. -/
def isLeap (y : Nat) : Bool :=
  (y % 4 == 0 && y % 100 != 0) || (y % 400 == 0)

/-- Number of days in a month of the proleptic Gregorian calendar. -/
def daysInMonth (y mo : Nat) : Nat :=
  if mo = 2 then (if isLeap y then 29 else 28)
  else if mo = 4 ∨ mo = 6 ∨ mo = 9 ∨ mo = 11 then 30
  else 31

/-- A calendar instant, broken into UTC fields. -/
structure Date where
  year : Nat
  month : Nat
  day : Nat
  hour : Nat
  minute : Nat
  second : Nat
deriving DecidableEq, Repr

/-- A date is valid when all fields lie in their calendar ranges.  Years start
at 1 (the model covers the common era, which contains every instant the
claims touch). -/
def DateValid (u : Date) : Prop :=
  1 ≤ u.year ∧ 1 ≤ u.month ∧ u.month ≤ 12 ∧ 1 ≤ u.day ∧
    u.day ≤ daysInMonth u.year u.month ∧ u.hour ≤ 23 ∧ u.minute ≤ 59 ∧ u.second ≤ 59

instance (u : Date) : Decidable (DateValid u) := by
  unfold DateValid; infer_instance

/-- Strictly monotone numeric encoding of a date; on valid dates its order is
chronological order. -/
def key (u : Date) : Nat :=
  ((((u.year * 12 + (u.month - 1)) * 31 + (u.day - 1)) * 24 + u.hour) * 60 + u.minute) * 60
    + u.second

/-- The next calendar second, with carry propagation through minutes, hours,
days, months and years. -/
def succSec (u : Date) : Date :=
  if u.second < 59 then { u with second := u.second + 1 }
  else if u.minute < 59 then { u with minute := u.minute + 1, second := 0 }
  else if u.hour < 23 then { u with hour := u.hour + 1, minute := 0, second := 0 }
  else if u.day < daysInMonth u.year u.month then
    { u with day := u.day + 1, hour := 0, minute := 0, second := 0 }
  else if u.month < 12 then
    { u with month := u.month + 1, day := 1, hour := 0, minute := 0, second := 0 }
  else
    { year := u.year + 1, month := 1, day := 1, hour := 0, minute := 0, second := 0 }

/-- Day of week of a Gregorian date by Sakamoto's method; 0 is Sunday,
5 is Friday (standard cron numbering). -/
def dayOfWeek (y mo d : Nat) : Nat :=
  let t : List Nat := [0, 3, 2, 5, 0, 3, 5, 1, 4, 6, 2, 4]
  let y2 := if mo < 3 then y - 1 else y
  (y2 + y2 / 4 - y2 / 100 + y2 / 400 + t.getD (mo - 1) 0 + d) % 7

/-! ## Engine data model

Modelled from the spec: the croner engine itself (parser, pattern model,
matcher, occurrence search, renderer) is not in this repository's sources;
only its binding-layer callers are.  The definitions below follow the
spec's component design (sections 3 and 4). -/

/-- Seconds policy (spec section 3): governs whether a 5-field or 6-field
textual pattern is accepted. -/
inductive Seconds
  | optional
  | required
  | disallowed
deriving DecidableEq, Repr

/-- Parse error taxonomy (spec section 7). -/
inductive CronError
  | fieldCountMismatch
  | unknownAlias
  | valueOutOfDomain
  | invertedRange
  | nonPositiveStep
  | malformedToken
deriving DecidableEq, Repr

/-- Modelled from the spec: a Field Constraint is "a finite, non-empty set of
integers drawn from the field's domain, tagged with whether it was written as
an unrestricted wildcard" (spec section 3).  The value set is kept as a
strictly sorted list. -/
structure FieldConstraint where
  vals : List Nat
  star : Bool
deriving DecidableEq, Repr

/-- Modelled from the spec: a Field Domain is "a per-field-kind specification
of valid numeric range and optional named aliases ... 0 and 7 both denote the
same day, canonicalized to one value" (spec section 3).  `canon` performs that
canonicalization and `chi` is the largest canonical value. -/
structure FieldDomain where
  lo : Nat
  hi : Nat
  chi : Nat
  aliases : List (List Char × Nat)
  canon : Nat → Nat

def secondsDomain : FieldDomain := ⟨0, 59, 59, [], fun v => v⟩

def minutesDomain : FieldDomain := ⟨0, 59, 59, [], fun v => v⟩

def hoursDomain : FieldDomain := ⟨0, 23, 23, [], fun v => v⟩

def domDomain : FieldDomain := ⟨1, 31, 31, [], fun v => v⟩

def monthsDomain : FieldDomain :=
  ⟨1, 12, 12,
    [(['J','A','N'], 1), (['F','E','B'], 2), (['M','A','R'], 3), (['A','P','R'], 4),
     (['M','A','Y'], 5), (['J','U','N'], 6), (['J','U','L'], 7), (['A','U','G'], 8),
     (['S','E','P'], 9), (['O','C','T'], 10), (['N','O','V'], 11), (['D','E','C'], 12)],
    fun v => v⟩

def dowDomain : FieldDomain :=
  ⟨0, 7, 6,
    [(['S','U','N'], 0), (['M','O','N'], 1), (['T','U','E'], 2), (['W','E','D'], 3),
     (['T','H','U'], 4), (['F','R','I'], 5), (['S','A','T'], 6)],
    fun v => if v = 7 then 0 else v⟩

/-- Modelled from the spec: a Pattern aggregates the parsed field constraints,
with the "Second constraint present only if seconds were supplied"
(spec section 3). -/
structure Pattern where
  secs : Option FieldConstraint
  mins : FieldConstraint
  hrs : FieldConstraint
  dom : FieldConstraint
  mons : FieldConstraint
  dow : FieldConstraint
deriving DecidableEq, Repr

/-! ## Field grammar and parser

Modelled from the spec, section 4.1. -/

/-- Case-insensitive alias lookup over an upper-cased token. -/
def lookupAlias : List (List Char × Nat) → List Char → Option Nat
  | [], _ => none
  | (k, n) :: rest, tok => if k = tok then some n else lookupAlias rest tok

/-- Parse a single value token: a decimal number or a named alias
(case-insensitive). -/
def parseValue (fd : FieldDomain) (tok : List Char) : Except CronError Nat :=
  match parseNat tok with
  | some n => .ok n
  | none =>
    match lookupAlias fd.aliases (tok.map Char.toUpper) with
    | some n => .ok n
    | none => .error .unknownAlias

/-- Shape of the base of one sub-expression. -/
inductive BodyKind
  | star
  | single
  | range
deriving DecidableEq, Repr

/-- Parse the base of a sub-expression (before any `/step`) into inclusive
bounds plus its shape. -/
def parseBounds (fd : FieldDomain) (body : List Char) :
    Except CronError (Nat × Nat × BodyKind) :=
  if body = ['*'] then .ok (fd.lo, fd.hi, .star)
  else
    match splitOnChar '-' body with
    | [t] =>
      match parseValue fd t with
      | .ok v => .ok (v, v, .single)
      | .error e => .error e
    | [t1, t2] =>
      match parseValue fd t1, parseValue fd t2 with
      | .ok v1, .ok v2 => .ok (v1, v2, .range)
      | .error e, _ => .error e
      | _, .error e => .error e
    | _ => .error .malformedToken

/-- Evaluate one sub-expression given its optional step: wildcard, single
value, range, step, or range with step (spec section 4.1).  Returns the
canonicalized values plus whether this sub-expression is an unrestricted
wildcard (`*`, or equivalently `*/1`, as pinned by the renderer in spec
section 4.2). -/
def parsePieceCore (fd : FieldDomain) (body : List Char) (stepOpt : Option Nat) :
    Except CronError (List Nat × Bool) :=
  if stepOpt = some 0 then .error .nonPositiveStep
  else
    match parseBounds fd body with
    | .error e => .error e
    | .ok (a, b, k) =>
      if a < fd.lo ∨ fd.hi < a ∨ b < fd.lo ∨ fd.hi < b then .error .valueOutOfDomain
      else if b < a then .error .invertedRange
      else
        let s := stepOpt.getD 1
        let upper := if k = BodyKind.single ∧ stepOpt.isSome then fd.hi else b
        let vs := ((rangeList a upper).filter (fun v => (v - a) % s == 0)).map fd.canon
        .ok (vs, decide (k = BodyKind.star ∧ s = 1))

/-- Parse one comma-separated sub-expression, splitting off an optional
`/step` suffix. -/
def parsePiece (fd : FieldDomain) (piece : List Char) : Except CronError (List Nat × Bool) :=
  match splitOnChar '/' piece with
  | [body] => parsePieceCore fd body none
  | [body, stepTok] =>
    match parseNat stepTok with
    | some s => parsePieceCore fd body (some s)
    | none => .error .malformedToken
  | _ => .error .malformedToken

/-- Union the values of a list of sub-expressions into one sorted constraint
set, tracking whether any sub-expression was an unrestricted wildcard. -/
def parseFieldAux (fd : FieldDomain) : List (List Char) → Except CronError (List Nat × Bool)
  | [] => .ok ([], false)
  | p :: rest =>
    match parsePiece fd p with
    | .error e => .error e
    | .ok (vs, st) =>
      match parseFieldAux fd rest with
      | .error e => .error e
      | .ok (accVs, accSt) => .ok (insertAll vs accVs, st || accSt)

/-- Parse one whole field: comma-separated sub-expressions unioned into one
constraint (spec section 4.1). -/
def parseField (fd : FieldDomain) (txt : List Char) : Except CronError FieldConstraint :=
  match parseFieldAux fd (splitOnChar ',' txt) with
  | .error e => .error e
  | .ok (vs, st) => .ok ⟨vs, st⟩

/-- Modelled from the spec: the top-level pattern parser "splits the trimmed
input on whitespace, counts fields, applies the seconds policy to decide
whether the first token is a seconds field, and fails with a field-count
error if the count does not match the policy's accepted shapes"
(spec section 4.1). -/
def parseCron (policy : Seconds) (txt : List Char) : Except CronError Pattern :=
  match splitWs txt with
  | [t1, t2, t3, t4, t5] =>
    if policy = Seconds.required then .error .fieldCountMismatch
    else
      match parseField minutesDomain t1 with
      | .error e => .error e
      | .ok f1 =>
        match parseField hoursDomain t2 with
        | .error e => .error e
        | .ok f2 =>
          match parseField domDomain t3 with
          | .error e => .error e
          | .ok f3 =>
            match parseField monthsDomain t4 with
            | .error e => .error e
            | .ok f4 =>
              match parseField dowDomain t5 with
              | .error e => .error e
              | .ok f5 => .ok ⟨none, f1, f2, f3, f4, f5⟩
  | [t0, t1, t2, t3, t4, t5] =>
    if policy = Seconds.disallowed then .error .fieldCountMismatch
    else
      match parseField secondsDomain t0 with
      | .error e => .error e
      | .ok f0 =>
        match parseField minutesDomain t1 with
        | .error e => .error e
        | .ok f1 =>
          match parseField hoursDomain t2 with
          | .error e => .error e
          | .ok f2 =>
            match parseField domDomain t3 with
            | .error e => .error e
            | .ok f3 =>
              match parseField monthsDomain t4 with
              | .error e => .error e
              | .ok f4 =>
                match parseField dowDomain t5 with
                | .error e => .error e
                | .ok f5 => .ok ⟨some f0, f1, f2, f3, f4, f5⟩
  | _ => .error .fieldCountMismatch

/-! ## Canonical rendering

Modelled from the spec, sections 3 and 4.2: the canonical textual form is the
"fields joined by single spaces in fixed order: [seconds] minute hour
day-of-month month day-of-week"; an unrestricted wildcard renders as `*`
(so `*/1` renders back as `*`), every other constraint renders its value set. -/

def renderField (f : FieldConstraint) : List Char :=
  if f.star then ['*'] else intercalateChar ',' (f.vals.map renderNat)

def renderPattern (P : Pattern) : List Char :=
  match P.secs with
  | none =>
    intercalateChar ' '
      [renderField P.mins, renderField P.hrs, renderField P.dom,
       renderField P.mons, renderField P.dow]
  | some f0 =>
    intercalateChar ' '
      [renderField f0, renderField P.mins, renderField P.hrs, renderField P.dom,
       renderField P.mons, renderField P.dow]

/-! ## Matcher

Modelled from the spec, section 4.3. -/

/-- Day-of-month / day-of-week combination rule (spec section 4.3): both
wildcards match any day; exactly one wildcard defers to the other; both
restricted combine with logical OR. -/
def dayMatch (P : Pattern) (u : Date) : Bool :=
  if P.dom.star && P.dow.star then true
  else if P.dom.star then memB (dayOfWeek u.year u.month u.day) P.dow.vals
  else if P.dow.star then memB u.day P.dom.vals
  else memB u.day P.dom.vals || memB (dayOfWeek u.year u.month u.day) P.dow.vals

/-- Membership test of an instant against a pattern (spec section 4.3): a
pattern without a seconds constraint matches only at second 0. -/
def cronMatch (P : Pattern) (u : Date) : Bool :=
  (match P.secs with
   | none => u.second == 0
   | some c => memB u.second c.vals)
    && memB u.minute P.mins.vals
    && memB u.hour P.hrs.vals
    && memB u.month P.mons.vals
    && dayMatch P u

/-! ## Occurrence search

Modelled from the spec, section 4.4: the search finds the next instant
satisfying the pattern, strictly after the start when not inclusive, and
"gives up and reports exhaustion after advancing past a fixed maximum horizon
(a bounded number of calendar years, e.g. 4-5) rather than looping forever". -/

/-- Bounded search: step one second at a time, at most `fuel` times. -/
def searchFrom (P : Pattern) : Nat → Date → Option Date
  | 0, _ => none
  | fuel + 1, u =>
    let v := succSec u
    if cronMatch P v then some v else searchFrom P fuel v

/-- Search horizon in seconds: five years of 366 days. -/
def searchHorizonSecs : Nat := 158112000

/-- Next occurrence of a pattern at or strictly after `start`
(spec sections 4.4 and 6); `none` is exhaustion. -/
def findNextOccurrence (P : Pattern) (start : Date) (inclusive : Bool) : Option Date :=
  if inclusive && cronMatch P start then some start
  else searchFrom P searchHorizonSecs start

/-- Modelled from the spec: `next_n_occurrences(pattern, start, count)`
"repeatedly calls `next_occurrence` with `inclusive_of_start=false`, feeding
each result back in as the new start; stops early (returning fewer than
`count` results) on exhaustion rather than failing the whole call"
(spec section 4.4). -/
def chainNextOccurrence (P : Pattern) : Nat → Date → List Date
  | 0, _ => []
  | k + 1, t =>
    match findNextOccurrence P t false with
    | some t2 => t2 :: chainNextOccurrence P k t2
    | none => []

/-- Modelled from the spec: the matcher entry point of the engine has a
fallible result type, but the "Matcher never errors (total function over any
Pattern and any Instant)" (spec section 7). -/
def isTimeMatching (P : Pattern) (u : Date) : Except CronError Bool :=
  .ok (cronMatch P u)

/-! ## Timestamp conversions

Models of `js_sys::Date::get_time` values, Rust's saturating `f64 as i64`
cast, and chrono's `DateTime::from_timestamp_millis` /
`timestamp_millis`, as used by the binding layer in src/src/lib.rs.
The chrono conversions are modelled from the spec's instant contract
(millisecond UTC epoch values, valid proleptic-Gregorian; spec sections 3
and 6), restricted to years 1 through 262143 (chrono's upper year bound). -/

/-- Result of `get_time()` on a JS date: NaN for an invalid date, otherwise
a finite millisecond value (integral for JS time values). -/
inductive JsTimestamp
  | nan
  | fin (v : Int)
deriving DecidableEq, Repr

/-- Rust's saturating `f64 as i64` cast: NaN becomes 0, out-of-range values
clamp to the i64 bounds. -/
def castI64 (t : JsTimestamp) : Int :=
  match t with
  | .nan => 0
  | .fin v =>
    if v < -9223372036854775808 then -9223372036854775808
    else if 9223372036854775807 < v then 9223372036854775807 else v

/-- Civil date from days since the Unix epoch (Gregorian calendar),
for days at or after year 1. -/
def civilFromDays (days : Int) : Nat × Nat × Nat :=
  let z := (days + 719468).toNat
  let era := z / 146097
  let doe := z % 146097
  let yoe := (doe - doe / 1460 + doe / 36524 - doe / 146096) / 365
  let y := yoe + era * 400
  let doy := doe - (365 * yoe + yoe / 4 - yoe / 100)
  let mp := (5 * doy + 2) / 153
  let d := doy - (153 * mp + 2) / 5 + 1
  let m := if mp < 10 then mp + 3 else mp - 9
  (if m ≤ 2 then y + 1 else y, m, d)

/-- Days since the Unix epoch of a civil date (Gregorian calendar). -/
def daysFromCivil (y mo d : Nat) : Int :=
  let y2 := if mo ≤ 2 then y - 1 else y
  let era := y2 / 400
  let yoe := y2 % 400
  let mp := (mo + 9) % 12
  let doy := (153 * mp + 2) / 5 + d - 1
  let doe := yoe * 365 + yoe / 4 - yoe / 100 + doy
  ((era * 146097 + doe : Nat) : Int) - 719468

/-- Model of chrono's `DateTime::from_timestamp_millis`: succeeds exactly for
timestamps whose civil date the model represents (years 1 through 262143,
chrono's upper bound); fails outside that range. -/
def fromTimestampMillis (ms : Int) : Option Date :=
  if ms < -62135596800000 then none
  else
    let s := Int.fdiv ms 1000
    let days := Int.fdiv s 86400
    let sod := (s - days * 86400).toNat
    let c := civilFromDays days
    if c.1 ≤ 262143 then
      some ⟨c.1, c.2.1, c.2.2, sod / 3600, sod % 3600 / 60, sod % 60⟩
    else none

/-- Model of chrono's `timestamp_millis` on a date produced by the engine. -/
def toMs (u : Date) : Int :=
  (daysFromCivil u.year u.month u.day * 86400
    + ((u.hour * 3600 + u.minute * 60 + u.second : Nat) : Int)) * 1000

/-! ## Binding layer, embedded from src/src/lib.rs -/

/-- A JS value read from the options object's `seconds` property:
`Reflect::get` yields `undefined` for a missing key, a string, or some
other value. -/
inductive JsVal
  | undef
  | str (s : String)
  | other
deriving DecidableEq, Repr

/-- The options object accepted by `new` and `validate`. -/
structure JsOpts where
  seconds : JsVal
deriving DecidableEq, Repr

/-- The `WasmCron` struct of src/src/lib.rs: the parsed pattern plus the
field-count flag computed at construction time. -/
structure WasmCron where
  inner : Pattern
  has_seconds : Bool
deriving DecidableEq, Repr

/-- Seconds-policy resolution of `WasmCron::new` (src/src/lib.rs lines 36-60):
missing object or undefined value default to Optional; a non-string or an
unrecognized string is an error. -/
def resolvePolicyNew (options : Option JsOpts) : Except String Seconds :=
  match options with
  | none => .ok .optional
  | some o =>
    match o.seconds with
    | .undef => .ok .optional
    | .other => .error "'seconds' option must be a string"
    | .str s =>
      match s with
      | "optional" => .ok .optional
      | "required" => .ok .required
      | "disallowed" => .ok .disallowed
      | _ => .error "'seconds' option must be 'optional', 'required', or 'disallowed'"

/-- `WasmCron::new` (src/src/lib.rs lines 35-78): resolve the policy, parse,
then record whether the raw pattern text has six whitespace-separated
fields. -/
def wasmNew (pattern : String) (options : Option JsOpts) : Except String WasmCron :=
  match resolvePolicyNew options with
  | .error e => .error e
  | .ok policy =>
    match parseCron policy pattern.data with
    | .error _ => .error "Invalid cron pattern"
    | .ok p => .ok ⟨p, (splitWs pattern.data).length == 6⟩

/-- Seconds-policy resolution of `WasmCron::validate` (src/src/lib.rs lines
96-117): like `new`, but any invalid option yields `none` (reported as an
invalid pattern) instead of an error. -/
def resolvePolicyValidate (options : Option JsOpts) : Option Seconds :=
  match options with
  | none => some .optional
  | some o =>
    match o.seconds with
    | .undef => some .optional
    | .other => none
    | .str s =>
      match s with
      | "optional" => some .optional
      | "required" => some .required
      | "disallowed" => some .disallowed
      | _ => none

/-- Success test for `Except`, the model of `Result::is_ok`. -/
def exceptOk {ε α : Type} : Except ε α → Bool
  | .ok _ => true
  | .error _ => false

/-- `WasmCron::validate` (src/src/lib.rs lines 94-125): parse and discard. -/
def wasmValidate (pattern : String) (options : Option JsOpts) : Bool :=
  match resolvePolicyValidate options with
  | none => false
  | some policy => exceptOk (parseCron policy pattern.data)

/-- Start-instant resolution shared by `next_run` and `next_runs`
(src/src/lib.rs lines 167-172 and 193-198): a supplied date is cast to i64
milliseconds and converted; on conversion failure the current wall-clock
instant `now` is used, as it is when no date is supplied. -/
def resolveStart (fromTime : Option JsTimestamp) (now : Date) : Date :=
  match fromTime with
  | some t => (fromTimestampMillis (castI64 t)).getD now
  | none => now

/-- `WasmCron::next_run` (src/src/lib.rs lines 166-178): exclusive next
occurrence from the resolved start, returned as epoch milliseconds. -/
def wasmNextRun (c : WasmCron) (fromTime : Option JsTimestamp) (now : Date) : Option Int :=
  (findNextOccurrence c.inner (resolveStart fromTime now) false).map toMs

/-- The `for` loop of `WasmCron::next_runs` (src/src/lib.rs lines 202-212):
up to `count` exclusive searches, each feeding its result back as the new
start, stopping early on exhaustion. -/
def nextRunsLoop (P : Pattern) : Nat → Date → List Int
  | 0, _ => []
  | k + 1, cur =>
    match findNextOccurrence P cur false with
    | some nxt => toMs nxt :: nextRunsLoop P k nxt
    | none => []

/-- `WasmCron::next_runs` (src/src/lib.rs lines 192-215). -/
def wasmNextRuns (c : WasmCron) (count : Nat) (fromTime : Option JsTimestamp)
    (now : Date) : List Int :=
  nextRunsLoop c.inner count (resolveStart fromTime now)

/-- `WasmCron::is_match` (src/src/lib.rs lines 218-226): convert the date,
returning false when the timestamp is unrepresentable, and `unwrap_or(false)`
around the engine's matcher. -/
def wasmIsMatch (c : WasmCron) (d : JsTimestamp) : Bool :=
  match fromTimestampMillis (castI64 d) with
  | some dt =>
    match isTimeMatching c.inner dt with
    | .ok b => b
    | .error _ => false
  | none => false

/-- `WasmCron::pattern` (src/src/lib.rs lines 134-137): the canonical text of
the parsed pattern. -/
def wasmPattern (c : WasmCron) : List Char :=
  renderPattern c.inner

/-! ## Parser invariants -/

/-- Well-formedness of a parsed field constraint (spec section 3): a strictly
sorted, non-empty, domain-bounded value set, equal to the full canonical range
when tagged as an unrestricted wildcard. -/
def FieldOK (lo chi : Nat) (f : FieldConstraint) : Prop :=
  f.vals.Pairwise (· < ·) ∧ f.vals ≠ [] ∧ (∀ v ∈ f.vals, lo ≤ v ∧ v ≤ chi) ∧
    (f.star = true → f.vals = rangeList lo chi)

/-- Well-formedness of a field domain descriptor: canonicalization maps the
raw range onto the canonical range and fixes canonical values. -/
def DomOK (fd : FieldDomain) : Prop :=
  fd.lo ≤ fd.chi ∧ fd.chi ≤ fd.hi ∧ fd.chi < 100 ∧
    (∀ v ∈ rangeList fd.lo fd.hi, fd.lo ≤ fd.canon v ∧ fd.canon v ≤ fd.chi) ∧
    (∀ w ∈ rangeList fd.lo fd.chi, w ∈ (rangeList fd.lo fd.hi).map fd.canon) ∧
    (∀ v ∈ rangeList fd.lo fd.chi, fd.canon v = v)

set_option maxRecDepth 10000

deriving instance DecidableEq for Except

/-! ## Concrete patterns used by the claim witnesses -/

/-- Pattern parsed from the text of the form every-15-minutes. -/
def c1Pat : Pattern :=
  ⟨none, ⟨[0, 15, 30, 45], false⟩, ⟨rangeList 0 23, true⟩, ⟨rangeList 1 31, true⟩,
   ⟨rangeList 1 12, true⟩, ⟨rangeList 0 6, true⟩⟩

/-- Pattern restricting day-of-month to 31 and month to April, day-of-week
unrestricted: it never matches. -/
def c3Pat : Pattern :=
  ⟨none, ⟨[0], false⟩, ⟨[0], false⟩, ⟨[31], false⟩, ⟨[4], false⟩, ⟨rangeList 0 6, true⟩⟩

/-- Pattern of the all-wildcard five-field text. -/
def c5Pat : Pattern :=
  ⟨none, ⟨rangeList 0 59, true⟩, ⟨rangeList 0 23, true⟩, ⟨rangeList 1 31, true⟩,
   ⟨rangeList 1 12, true⟩, ⟨rangeList 0 6, true⟩⟩

/-- Pattern of the both-day-fields-restricted Friday-or-13th text. -/
def c6Pat : Pattern :=
  ⟨none, ⟨[0], false⟩, ⟨[0], false⟩, ⟨[13], false⟩, ⟨rangeList 1 12, true⟩, ⟨[5], false⟩⟩

/-- An every-minute cron object, as constructed from the all-wildcard text. -/
def c9Cron : WasmCron := ⟨c5Pat, false⟩

/-- A fixed wall-clock instant used as `now` in the C9 scenarios. -/
def c9Now : Date := ⟨2024, 1, 1, 0, 0, 0⟩

/-- Pattern of a six-field text with seconds. -/
def c10Pat : Pattern :=
  ⟨some ⟨[0], false⟩, ⟨[0], false⟩, ⟨rangeList 0 23, true⟩, ⟨rangeList 1 31, true⟩,
   ⟨rangeList 1 12, true⟩, ⟨rangeList 0 6, true⟩⟩

/-- Options whose seconds entry is absent, undefined, or one of the three
valid strings (the domain on which the claim compares validate and new). -/
def GoodOpts : Option JsOpts → Prop
  | none => True
  | some o =>
    o.seconds = JsVal.undef ∨ o.seconds = JsVal.str "optional" ∨
      o.seconds = JsVal.str "required" ∨ o.seconds = JsVal.str "disallowed"

/-! ## Calendar lemmas -/

theorem daysInMonth_le (y mo : Nat) : daysInMonth y mo ≤ 31 := by
  unfold daysInMonth
  split_ifs <;> omega

theorem daysInMonth_ge (y mo : Nat) : 28 ≤ daysInMonth y mo := by
  unfold daysInMonth
  split_ifs <;> omega

theorem succSec_valid (u : Date) (hu : DateValid u) : DateValid (succSec u) := by
  obtain ⟨h1, h2, h3, h4, h5, h6, h7, h8⟩ := hu
  have hA : 28 ≤ daysInMonth u.year (u.month + 1) := daysInMonth_ge _ _
  have hB : 28 ≤ daysInMonth (u.year + 1) 1 := daysInMonth_ge _ _
  unfold succSec DateValid
  split_ifs with a1 a2 a3 a4 a5 <;> simp only [] <;>
    exact ⟨by omega, by omega, by omega, by omega, by omega, by omega, by omega, by omega⟩

theorem key_lt_succSec (u : Date) (hu : DateValid u) : key u < key (succSec u) := by
  obtain ⟨h1, h2, h3, h4, h5, h6, h7, h8⟩ := hu
  have hle : daysInMonth u.year u.month ≤ 31 := daysInMonth_le _ _
  unfold succSec
  split_ifs with a1 a2 a3 a4 a5 <;> (unfold key; simp only []) <;> omega

theorem key_inj (u v : Date) (hu : DateValid u) (hv : DateValid v)
    (h : key u = key v) : u = v := by
  obtain ⟨h1, h2, h3, h4, h5, h6, h7, h8⟩ := hu
  obtain ⟨g1, g2, g3, g4, g5, g6, g7, g8⟩ := hv
  have hle : daysInMonth u.year u.month ≤ 31 := daysInMonth_le _ _
  have gle : daysInMonth v.year v.month ≤ 31 := daysInMonth_le _ _
  unfold key at h
  cases u
  cases v
  simp only [Date.mk.injEq]
  simp only [] at *
  refine ⟨by omega, by omega, by omega, by omega, by omega, by omega⟩

theorem succSec_min (u v : Date) (hu : DateValid u) (hv : DateValid v)
    (h : key u < key v) : key (succSec u) ≤ key v := by
  obtain ⟨h1, h2, h3, h4, h5, h6, h7, h8⟩ := hu
  obtain ⟨g1, g2, g3, g4, g5, g6, g7, g8⟩ := hv
  have hle : daysInMonth u.year u.month ≤ 31 := daysInMonth_le _ _
  have gle : daysInMonth v.year v.month ≤ 31 := daysInMonth_le _ _
  unfold succSec
  split_ifs with a1 a2 a3 a4 a5 <;> (unfold key at *; simp only [] at *)
  · omega
  · omega
  · omega
  · omega
  · -- month rollover
    by_cases hsame : v.year = u.year ∧ v.month = u.month
    · exfalso
      obtain ⟨e1, e2⟩ := hsame
      rw [e1, e2] at g5
      omega
    · have : ¬ (v.year = u.year ∧ v.month = u.month) := hsame
      omega
  · -- year rollover
    by_cases hsame : v.year = u.year ∧ v.month = u.month
    · exfalso
      obtain ⟨e1, e2⟩ := hsame
      rw [e1, e2] at g5
      omega
    · have : ¬ (v.year = u.year ∧ v.month = u.month) := hsame
      omega

/-! ## List lemmas -/

theorem memB_iff (v : Nat) : ∀ l : List Nat, memB v l = true ↔ v ∈ l := by
  intro l
  induction l with
  | nil => simp [memB]
  | cons x xs ih =>
    unfold memB
    rw [Bool.or_eq_true, ih, beq_iff_eq]
    constructor
    · rintro (h | h)
      · exact List.mem_cons.mpr (Or.inl h.symm)
      · exact List.mem_cons_of_mem _ h
    · intro h
      rcases List.mem_cons.mp h with h | h
      · exact Or.inl h.symm
      · exact Or.inr h

theorem mem_rangeGo : ∀ (n s v : Nat), v ∈ rangeGo n s ↔ s ≤ v ∧ v < s + n := by
  intro n
  induction n with
  | zero =>
    intro s v
    simp only [rangeGo, List.not_mem_nil, false_iff]
    omega
  | succ m ih =>
    intro s v
    simp only [rangeGo, List.mem_cons, ih]
    omega

theorem pairwise_rangeGo : ∀ (n s : Nat), (rangeGo n s).Pairwise (· < ·) := by
  intro n
  induction n with
  | zero => intro s; simp [rangeGo]
  | succ m ih =>
    intro s
    simp only [rangeGo, List.pairwise_cons]
    refine ⟨?_, ih (s + 1)⟩
    intro b hb
    have := (mem_rangeGo m (s + 1) b).mp hb
    omega

theorem mem_rangeList (lo hi v : Nat) : v ∈ rangeList lo hi ↔ lo ≤ v ∧ v ≤ hi := by
  unfold rangeList
  rw [mem_rangeGo]
  omega

theorem pairwise_rangeList (lo hi : Nat) : (rangeList lo hi).Pairwise (· < ·) :=
  pairwise_rangeGo _ _

theorem mem_insertSorted : ∀ (l : List Nat) (x v : Nat),
    v ∈ insertSorted x l ↔ v = x ∨ v ∈ l := by
  intro l
  induction l with
  | nil => intro x v; simp [insertSorted]
  | cons y ys ih =>
    intro x v
    unfold insertSorted
    split_ifs with h1 h2
    · simp only [List.mem_cons]
    · subst h2
      simp only [List.mem_cons]
      tauto
    · simp only [List.mem_cons, ih]
      tauto

theorem insertSorted_ne_nil (l : List Nat) (x : Nat) : insertSorted x l ≠ [] := by
  cases l with
  | nil => simp [insertSorted]
  | cons y ys =>
    unfold insertSorted
    split_ifs <;> simp

theorem pairwise_insertSorted : ∀ (l : List Nat) (x : Nat),
    l.Pairwise (· < ·) → (insertSorted x l).Pairwise (· < ·) := by
  intro l
  induction l with
  | nil => intro x _; simp [insertSorted]
  | cons y ys ih =>
    intro x hp
    rw [List.pairwise_cons] at hp
    obtain ⟨hy, hys⟩ := hp
    unfold insertSorted
    split_ifs with h1 h2
    · rw [List.pairwise_cons]
      refine ⟨?_, by rw [List.pairwise_cons]; exact ⟨hy, hys⟩⟩
      intro b hb
      rcases List.mem_cons.mp hb with rfl | hb2
      · exact h1
      · exact Nat.lt_trans h1 (hy b hb2)
    · rw [List.pairwise_cons]; exact ⟨hy, hys⟩
    · rw [List.pairwise_cons]
      refine ⟨?_, ih x hys⟩
      intro b hb
      rcases (mem_insertSorted ys x b).mp hb with rfl | hb2
      · omega
      · exact hy b hb2

theorem insertAll_cons (x : Nat) (xs acc : List Nat) :
    insertAll (x :: xs) acc = insertSorted x (insertAll xs acc) := rfl

theorem mem_insertAll : ∀ (xs acc : List Nat) (v : Nat),
    v ∈ insertAll xs acc ↔ v ∈ xs ∨ v ∈ acc := by
  intro xs
  induction xs with
  | nil => intro acc v; simp [insertAll]
  | cons x xs ih =>
    intro acc v
    rw [insertAll_cons, mem_insertSorted, ih]
    simp [List.mem_cons]
    tauto

theorem pairwise_insertAll : ∀ (xs acc : List Nat),
    acc.Pairwise (· < ·) → (insertAll xs acc).Pairwise (· < ·) := by
  intro xs
  induction xs with
  | nil => intro acc h; exact h
  | cons x xs ih =>
    intro acc h
    rw [insertAll_cons]
    exact pairwise_insertSorted _ _ (ih acc h)

theorem insertAll_ne_nil (xs acc : List Nat) (h : xs ≠ [] ∨ acc ≠ []) :
    insertAll xs acc ≠ [] := by
  cases xs with
  | nil =>
    rcases h with h | h
    · exact absurd rfl h
    · exact h
  | cons x xs => exact insertSorted_ne_nil _ _

theorem pairwise_ext : ∀ (l1 l2 : List Nat), l1.Pairwise (· < ·) →
    l2.Pairwise (· < ·) → (∀ x, x ∈ l1 ↔ x ∈ l2) → l1 = l2 := by
  intro l1
  induction l1 with
  | nil =>
    intro l2 _ _ hm
    cases l2 with
    | nil => rfl
    | cons y ys => exact absurd ((hm y).mpr (List.mem_cons_self y ys)) (by simp)
  | cons x xs ih =>
    intro l2 hp1 hp2 hm
    cases l2 with
    | nil => exact absurd ((hm x).mp (List.mem_cons_self x xs)) (by simp)
    | cons y ys =>
      rw [List.pairwise_cons] at hp1 hp2
      obtain ⟨hx, hxs⟩ := hp1
      obtain ⟨hy, hys⟩ := hp2
      have hxy : x = y := by
        rcases List.mem_cons.mp ((hm x).mp (List.mem_cons_self x xs)) with h | h
        · exact h
        · rcases List.mem_cons.mp ((hm y).mpr (List.mem_cons_self y ys)) with h2 | h2
          · omega
          · have := hx y h2
            have := hy x h
            omega
      subst hxy
      have htl : xs = ys := by
        apply ih ys hxs hys
        intro v
        constructor
        · intro hv
          have hv2 : v ∈ x :: xs := List.mem_cons.mpr (Or.inr hv)
          rcases List.mem_cons.mp ((hm v).mp hv2) with h | h
          · have := hx v hv; omega
          · exact h
        · intro hv
          have hv2 : v ∈ x :: ys := List.mem_cons.mpr (Or.inr hv)
          rcases List.mem_cons.mp ((hm v).mpr hv2) with h | h
          · have := hy v hv; omega
          · exact h
      rw [htl]

/-! ## Occurrence-search lemmas -/

theorem searchFrom_eq_none (P : Pattern)
    (hall : ∀ v, DateValid v → cronMatch P v = false) :
    ∀ (fuel : Nat) (u : Date), DateValid u → searchFrom P fuel u = none := by
  intro fuel
  induction fuel with
  | zero => intro u _; rfl
  | succ f ih =>
    intro u hu
    have hv : DateValid (succSec u) := succSec_valid u hu
    simp only [searchFrom]
    rw [hall _ hv]
    simp only [if_false, Bool.false_eq_true]
    exact ih _ hv

theorem searchFrom_found (P : Pattern) :
    ∀ (fuel : Nat) (u t2 : Date), DateValid u →
      searchFrom P fuel u = some t2 →
      key u < key t2 ∧ DateValid t2 ∧ cronMatch P t2 = true ∧
        (∀ w, DateValid w → key u < key w → key w < key t2 → cronMatch P w = false) := by
  intro fuel
  induction fuel with
  | zero => intro u t2 _ h; exact absurd h (by simp [searchFrom])
  | succ f ih =>
    intro u t2 hu h
    have hvvalid : DateValid (succSec u) := succSec_valid u hu
    have hkey : key u < key (succSec u) := key_lt_succSec u hu
    simp only [searchFrom] at h
    by_cases hm : cronMatch P (succSec u) = true
    · rw [if_pos hm] at h
      have ht2 : succSec u = t2 := Option.some.inj h
      subst ht2
      refine ⟨hkey, hvvalid, hm, ?_⟩
      intro w hw h1 h2
      exact absurd (succSec_min u w hu hw h1) (by omega)
    · rw [if_neg hm] at h
      obtain ⟨k1, k2, k3, k4⟩ := ih (succSec u) t2 hvvalid h
      refine ⟨by omega, k2, k3, ?_⟩
      intro w hw h1 h2
      have hge : key (succSec u) ≤ key w := succSec_min u w hu hw h1
      rcases Nat.eq_or_lt_of_le hge with heq | hlt
      · have heqw : succSec u = w := key_inj _ _ hvvalid hw heq
        rw [← heqw]
        exact Bool.eq_false_iff.mpr hm
      · exact k4 w hw hlt h2

theorem domOK_seconds : DomOK secondsDomain := by unfold DomOK; decide

theorem domOK_minutes : DomOK minutesDomain := by unfold DomOK; decide

theorem domOK_hours : DomOK hoursDomain := by unfold DomOK; decide

theorem domOK_dom : DomOK domDomain := by unfold DomOK; decide

theorem domOK_months : DomOK monthsDomain := by unfold DomOK; decide

theorem domOK_dow : DomOK dowDomain := by unfold DomOK; decide

theorem parseBounds_star (fd : FieldDomain) (body : List Char) (a b : Nat)
    (h : parseBounds fd body = .ok (a, b, BodyKind.star)) : a = fd.lo ∧ b = fd.hi := by
  unfold parseBounds at h
  split at h
  · simp only [Except.ok.injEq, Prod.mk.injEq] at h
    exact ⟨h.1.symm, h.2.1.symm⟩
  · split at h
    · split at h <;> simp at h
    · split at h <;> simp at h
    · simp at h

theorem parsePieceCore_inv (fd : FieldDomain) (hdom : DomOK fd) (body : List Char)
    (stepOpt : Option Nat) (vs : List Nat) (st : Bool)
    (h : parsePieceCore fd body stepOpt = .ok (vs, st)) :
    (∀ v ∈ vs, fd.lo ≤ v ∧ v ≤ fd.chi) ∧ vs ≠ [] ∧
      (st = true → vs = (rangeList fd.lo fd.hi).map fd.canon) := by
  obtain ⟨d1, d2, d3, d4, d5, d6⟩ := hdom
  unfold parsePieceCore at h
  split at h
  · exact absurd h (by simp)
  · rename_i hs0
    split at h
    · exact absurd h (by simp)
    · rename_i a b k hpb
      split at h
      · exact absurd h (by simp)
      · rename_i hd
        split at h
        · exact absurd h (by simp)
        · rename_i hba
          simp only [Except.ok.injEq, Prod.mk.injEq] at h
          obtain ⟨hvs, hst⟩ := h
          have hupper : (if k = BodyKind.single ∧ stepOpt.isSome then fd.hi else b) ≤ fd.hi := by
            split_ifs <;> omega
          have haupper : a ≤ (if k = BodyKind.single ∧ stepOpt.isSome then fd.hi else b) := by
            split_ifs <;> omega
          refine ⟨?_, ?_, ?_⟩
          · intro v hv
            rw [← hvs] at hv
            obtain ⟨w, hwmem, hwc⟩ := List.mem_map.mp hv
            have hwr := List.mem_filter.mp hwmem
            have hwb := (mem_rangeList _ _ w).mp hwr.1
            have : w ∈ rangeList fd.lo fd.hi := (mem_rangeList _ _ w).mpr (by omega)
            have := d4 w this
            omega
          · rw [← hvs]
            have hmem : a ∈ (rangeList a
                (if k = BodyKind.single ∧ stepOpt.isSome then fd.hi else b)).filter
                  (fun v => (v - a) % stepOpt.getD 1 == 0) := by
              rw [List.mem_filter]
              refine ⟨(mem_rangeList _ _ a).mpr (by omega), ?_⟩
              simp [Nat.sub_self]
            intro hnil
            rw [List.map_eq_nil_iff] at hnil
            rw [hnil] at hmem
            exact absurd hmem (by simp)
          · intro hstar
            rw [← hst] at hstar
            have hks : k = BodyKind.star ∧ stepOpt.getD 1 = 1 := of_decide_eq_true hstar
            obtain ⟨hlo, hhi⟩ := parseBounds_star fd body a b (hks.1 ▸ hpb)
            have hup : (if k = BodyKind.single ∧ stepOpt.isSome then fd.hi else b) = b := by
              rw [if_neg]
              intro hc
              rw [hks.1] at hc
              exact absurd hc.1 (by simp)
            rw [← hvs, hup, hks.2, hlo, hhi]
            congr 1
            rw [List.filter_eq_self]
            intro w _
            simp [Nat.mod_one]

theorem parsePiece_inv (fd : FieldDomain) (hdom : DomOK fd) (p : List Char)
    (vs : List Nat) (st : Bool) (h : parsePiece fd p = .ok (vs, st)) :
    (∀ v ∈ vs, fd.lo ≤ v ∧ v ≤ fd.chi) ∧ vs ≠ [] ∧
      (st = true → vs = (rangeList fd.lo fd.hi).map fd.canon) := by
  unfold parsePiece at h
  split at h
  · rename_i body hsp
    exact parsePieceCore_inv fd hdom body none vs st h
  · rename_i body stepTok hsp
    split at h
    · rename_i s hpn
      exact parsePieceCore_inv fd hdom body _ vs st h
    · exact absurd h (by simp)
  · exact absurd h (by simp)

theorem parseFieldAux_inv (fd : FieldDomain) (hdom : DomOK fd) :
    ∀ (pieces : List (List Char)) (vs : List Nat) (st : Bool),
      parseFieldAux fd pieces = .ok (vs, st) →
      vs.Pairwise (· < ·) ∧ (∀ v ∈ vs, fd.lo ≤ v ∧ v ≤ fd.chi) ∧
        (pieces ≠ [] → vs ≠ []) ∧
        (st = true → ∀ w, fd.lo ≤ w → w ≤ fd.chi → w ∈ vs) := by
  intro pieces
  induction pieces with
  | nil =>
    intro vs st h
    simp only [parseFieldAux, Except.ok.injEq, Prod.mk.injEq] at h
    obtain ⟨hvs, hst⟩ := h
    subst hvs
    subst hst
    refine ⟨by simp, by simp, by simp, by simp⟩
  | cons p rest ih =>
    intro vs st h
    simp only [parseFieldAux] at h
    cases hp : parsePiece fd p with
    | error e => rw [hp] at h; exact absurd h (by simp)
    | ok pr =>
      rw [hp] at h
      obtain ⟨pvs, pst⟩ := pr
      cases hr : parseFieldAux fd rest with
      | error e => rw [hr] at h; exact absurd h (by simp)
      | ok ar =>
        rw [hr] at h
        obtain ⟨avs, ast⟩ := ar
        simp only [Except.ok.injEq, Prod.mk.injEq] at h
        obtain ⟨hvs, hst⟩ := h
        obtain ⟨pb, pne, pstar⟩ := parsePiece_inv fd hdom p pvs pst hp
        obtain ⟨apw, ab, ane, astar⟩ := ih avs ast hr
        obtain ⟨d1, d2, d3, d4, d5, d6⟩ := hdom
        refine ⟨?_, ?_, ?_, ?_⟩
        · rw [← hvs]
          exact pairwise_insertAll _ _ apw
        · intro v hv
          rw [← hvs] at hv
          rcases (mem_insertAll pvs avs v).mp hv with hm | hm
          · exact pb v hm
          · exact ab v hm
        · intro _
          rw [← hvs]
          exact insertAll_ne_nil _ _ (Or.inl pne)
        · intro hstar w hw1 hw2
          rw [← hvs]
          rw [← hst] at hstar
          rw [mem_insertAll]
          rcases Bool.or_eq_true_iff.mp hstar with hs | hs
          · left
            rw [pstar hs]
            exact d5 w ((mem_rangeList _ _ w).mpr ⟨hw1, hw2⟩)
          · right
            exact astar hs w hw1 hw2

theorem splitOnChar_ne_nil (c : Char) : ∀ l : List Char, splitOnChar c l ≠ [] := by
  intro l
  induction l with
  | nil => simp [splitOnChar]
  | cons x xs ih =>
    unfold splitOnChar
    split_ifs
    · simp
    · unfold splitOnCharGlue
      cases hs : splitOnChar c xs <;> simp

theorem parseField_inv (fd : FieldDomain) (hdom : DomOK fd) (txt : List Char)
    (f : FieldConstraint) (h : parseField fd txt = .ok f) : FieldOK fd.lo fd.chi f := by
  unfold parseField at h
  cases ha : parseFieldAux fd (splitOnChar ',' txt) with
  | error e => rw [ha] at h; exact absurd h (by simp)
  | ok r =>
    rw [ha] at h
    obtain ⟨vs, st⟩ := r
    obtain ⟨hpw, hb, hne, hstar⟩ := parseFieldAux_inv fd hdom _ vs st ha
    simp only [Except.ok.injEq] at h
    subst h
    refine ⟨hpw, hne (splitOnChar_ne_nil _ _), hb, ?_⟩
    intro hs
    apply pairwise_ext _ _ hpw (pairwise_rangeList _ _)
    intro x
    rw [mem_rangeList]
    constructor
    · intro hx
      exact hb x hx
    · intro hx
      exact hstar hs x hx.1 hx.2

/-! ## Rendering round-trip lemmas -/

theorem insertSorted_of_forall_lt (l : List Nat) (x : Nat) (h : ∀ b ∈ l, x < b) :
    insertSorted x l = x :: l := by
  cases l with
  | nil => rfl
  | cons y ys =>
    unfold insertSorted
    rw [if_pos (h y (List.mem_cons_self y ys))]

theorem splitOnChar_cons (c x : Char) (xs : List Char) :
    splitOnChar c (x :: xs) =
      if x = c then [] :: splitOnChar c xs else splitOnCharGlue x (splitOnChar c xs) := rfl

theorem splitWsGlue_nil (x : Char) (cs : List Char) : splitWsGlue x cs [] = [[x]] := rfl

theorem splitWsGlue_cons (x c2 : Char) (cs2 : List Char) (h : List Char)
    (t : List (List Char)) :
    splitWsGlue x (c2 :: cs2) (h :: t) =
      if c2.isWhitespace then [x] :: h :: t else (x :: h) :: t := rfl

theorem splitWs_cons_eq (c : Char) (cs : List Char) :
    splitWs (c :: cs) =
      if c.isWhitespace then splitWs cs else splitWsGlue c cs (splitWs cs) := rfl

theorem splitOnChar_not_mem (c : Char) : ∀ l : List Char, c ∉ l → splitOnChar c l = [l] := by
  intro l
  induction l with
  | nil => intro _; rfl
  | cons x xs ih =>
    intro h
    have hx : ¬ x = c := fun hc => h (hc ▸ List.mem_cons_self x xs)
    have hxs : c ∉ xs := fun hc => h (List.mem_cons_of_mem _ hc)
    rw [splitOnChar_cons, if_neg hx, ih hxs]
    rfl

theorem splitOnChar_append (c : Char) : ∀ l1 l2 : List Char, c ∉ l1 →
    splitOnChar c (l1 ++ c :: l2) = l1 :: splitOnChar c l2 := by
  intro l1
  induction l1 with
  | nil =>
    intro l2 _
    simp only [List.nil_append]
    rw [splitOnChar_cons, if_pos rfl]
  | cons x xs ih =>
    intro l2 h
    have hx : ¬ x = c := fun hc => h (hc ▸ List.mem_cons_self x xs)
    have hxs : c ∉ xs := fun hc => h (List.mem_cons_of_mem _ hc)
    simp only [List.cons_append]
    rw [splitOnChar_cons, if_neg hx, ih l2 hxs]
    rfl

theorem splitOnChar_intercalate (c : Char) : ∀ ls : List (List Char), ls ≠ [] →
    (∀ l ∈ ls, c ∉ l) → splitOnChar c (intercalateChar c ls) = ls := by
  intro ls
  induction ls with
  | nil => intro h _; exact absurd rfl h
  | cons x rest ih =>
    intro _ hmem
    cases rest with
    | nil =>
      show splitOnChar c (intercalateChar c [x]) = [x]
      unfold intercalateChar
      exact splitOnChar_not_mem c x (hmem x (List.mem_cons_self _ _))
    | cons y rest2 =>
      show splitOnChar c (x ++ c :: intercalateChar c (y :: rest2)) = x :: y :: rest2
      rw [splitOnChar_append c x _ (hmem x (List.mem_cons_self _ _))]
      rw [ih (by simp) (fun l hl => hmem l (List.mem_cons_of_mem _ hl))]

theorem mem_intercalateChar (sep : Char) : ∀ (ls : List (List Char)) (c : Char),
    c ∈ intercalateChar sep ls → c = sep ∨ ∃ l, l ∈ ls ∧ c ∈ l := by
  intro ls
  induction ls with
  | nil => intro c h; exact absurd h (by simp [intercalateChar])
  | cons x rest ih =>
    intro c h
    cases rest with
    | nil =>
      right
      exact ⟨x, List.mem_cons_self _ _, h⟩
    | cons y rest2 =>
      have h2 : c ∈ x ++ sep :: intercalateChar sep (y :: rest2) := h
      rcases List.mem_append.mp h2 with hx | hr
      · right
        exact ⟨x, List.mem_cons_self _ _, hx⟩
      · rcases List.mem_cons.mp hr with hc | hc
        · exact Or.inl hc
        · rcases ih c hc with hc2 | ⟨l, hl, hcl⟩
          · exact Or.inl hc2
          · exact Or.inr ⟨l, List.mem_cons_of_mem _ hl, hcl⟩

theorem splitWs_ws_cons (c : Char) (l : List Char) (h : c.isWhitespace = true) :
    splitWs (c :: l) = splitWs l := by
  rw [splitWs_cons_eq, if_pos h]

theorem splitWs_token : ∀ tok : List Char, tok ≠ [] →
    (∀ c ∈ tok, c.isWhitespace = false) → splitWs tok = [tok] := by
  intro tok
  induction tok with
  | nil => intro h _; exact absurd rfl h
  | cons x xs ih =>
    intro _ hws
    have hx : ¬ x.isWhitespace = true := by
      rw [hws x (List.mem_cons_self _ _)]; simp
    cases xs with
    | nil =>
      rw [splitWs_cons_eq, if_neg hx]
      rfl
    | cons y ys =>
      have hy : ¬ y.isWhitespace = true := by
        rw [hws y (List.mem_cons_of_mem _ (List.mem_cons_self _ _))]; simp
      have hrec : splitWs (y :: ys) = [y :: ys] :=
        ih (by simp) (fun c hc => hws c (List.mem_cons_of_mem _ hc))
      rw [splitWs_cons_eq, if_neg hx, hrec, splitWsGlue_cons, if_neg hy]

theorem splitWs_token_append : ∀ (tok rest : List Char), tok ≠ [] →
    (∀ c ∈ tok, c.isWhitespace = false) →
    splitWs (tok ++ ' ' :: rest) = tok :: splitWs rest := by
  intro tok
  induction tok with
  | nil => intro rest h _; exact absurd rfl h
  | cons x xs ih =>
    intro rest _ hws
    have hx : ¬ x.isWhitespace = true := by
      rw [hws x (List.mem_cons_self _ _)]; simp
    cases xs with
    | nil =>
      show splitWs (x :: ' ' :: rest) = [x] :: splitWs rest
      have hsp : splitWs (' ' :: rest) = splitWs rest := splitWs_ws_cons _ _ (by decide)
      rw [splitWs_cons_eq, if_neg hx, hsp]
      cases hres : splitWs rest with
      | nil => rfl
      | cons h t =>
        rw [splitWsGlue_cons, if_pos (by decide)]
    | cons y ys =>
      have hy : ¬ y.isWhitespace = true := by
        rw [hws y (List.mem_cons_of_mem _ (List.mem_cons_self _ _))]; simp
      have hrec : splitWs ((y :: ys) ++ ' ' :: rest) = (y :: ys) :: splitWs rest :=
        ih rest (by simp) (fun c hc => hws c (List.mem_cons_of_mem _ hc))
      show splitWs (x :: ((y :: ys) ++ ' ' :: rest)) = (x :: y :: ys) :: splitWs rest
      rw [splitWs_cons_eq, if_neg hx, hrec]
      simp only [List.cons_append]
      rw [splitWsGlue_cons, if_neg hy]

theorem splitWs_intercalate : ∀ toks : List (List Char), toks ≠ [] →
    (∀ t ∈ toks, t ≠ [] ∧ ∀ c ∈ t, c.isWhitespace = false) →
    splitWs (intercalateChar ' ' toks) = toks := by
  intro toks
  induction toks with
  | nil => intro h _; exact absurd rfl h
  | cons x rest ih =>
    intro _ hmem
    obtain ⟨hxne, hxws⟩ := hmem x (List.mem_cons_self _ _)
    cases rest with
    | nil =>
      show splitWs (intercalateChar ' ' [x]) = [x]
      unfold intercalateChar
      exact splitWs_token x hxne hxws
    | cons y rest2 =>
      show splitWs (x ++ ' ' :: intercalateChar ' ' (y :: rest2)) = x :: y :: rest2
      rw [splitWs_token_append x _ hxne hxws]
      rw [ih (by simp) (fun t ht => hmem t (List.mem_cons_of_mem _ ht))]

theorem renderNat_facts : ∀ v ∈ rangeList 0 99,
    renderNat v ≠ [] ∧ (',' ∈ renderNat v → False) ∧
      ∀ c ∈ renderNat v, c.isWhitespace = false := by decide

theorem parseFieldAux_render (fd : FieldDomain) : ∀ vals : List Nat,
    vals.Pairwise (· < ·) →
    (∀ v ∈ vals, parsePiece fd (renderNat v) = .ok ([v], false)) →
    parseFieldAux fd (vals.map renderNat) = .ok (vals, false) := by
  intro vals
  induction vals with
  | nil => intro _ _; rfl
  | cons v vsr ih =>
    intro hpw hpp
    rw [List.pairwise_cons] at hpw
    obtain ⟨hlt, hpwr⟩ := hpw
    have hrec : parseFieldAux fd (vsr.map renderNat) = .ok (vsr, false) :=
      ih hpwr (fun w hw => hpp w (List.mem_cons_of_mem _ hw))
    have hpv : parsePiece fd (renderNat v) = .ok ([v], false) :=
      hpp v (List.mem_cons_self _ _)
    have hins : insertAll [v] vsr = v :: vsr := by
      show insertSorted v (insertAll [] vsr) = v :: vsr
      show insertSorted v vsr = v :: vsr
      exact insertSorted_of_forall_lt vsr v hlt
    show parseFieldAux fd (renderNat v :: vsr.map renderNat) = .ok (v :: vsr, false)
    simp only [parseFieldAux, hpv, hrec, hins, Bool.or_self]

theorem parseField_render (fd : FieldDomain) (f : FieldConstraint)
    (hok : FieldOK fd.lo fd.chi f) (hchi : fd.chi < 100)
    (hpp : ∀ v ∈ rangeList fd.lo fd.chi, parsePiece fd (renderNat v) = .ok ([v], false))
    (hstarp : parseField fd ['*'] = .ok ⟨rangeList fd.lo fd.chi, true⟩) :
    parseField fd (renderField f) = .ok f := by
  obtain ⟨hpw, hne, hb, hstar⟩ := hok
  unfold renderField
  by_cases hs : f.star = true
  · rw [if_pos hs, hstarp]
    cases f with
    | mk vals star =>
      simp only [Except.ok.injEq, FieldConstraint.mk.injEq]
      exact ⟨(hstar hs).symm, hs.symm⟩
  · rw [if_neg hs]
    have hmem99 : ∀ v ∈ f.vals, v ∈ rangeList 0 99 := by
      intro v hv
      have := hb v hv
      rw [mem_rangeList]
      omega
    have hsplit : splitOnChar ',' (intercalateChar ',' (f.vals.map renderNat)) =
        f.vals.map renderNat := by
      apply splitOnChar_intercalate
      · intro hc
        rw [List.map_eq_nil_iff] at hc
        exact hne hc
      · intro l hl
        obtain ⟨v, hv, hveq⟩ := List.mem_map.mp hl
        rw [← hveq]
        exact (renderNat_facts v (hmem99 v hv)).2.1
    have haux : parseFieldAux fd (f.vals.map renderNat) = .ok (f.vals, false) := by
      apply parseFieldAux_render fd f.vals hpw
      intro v hv
      have := hb v hv
      exact hpp v ((mem_rangeList _ _ v).mpr this)
    unfold parseField
    rw [hsplit, haux]
    cases f with
    | mk vals star =>
      simp only [Except.ok.injEq, FieldConstraint.mk.injEq]
      simp only [Bool.not_eq_true] at hs
      exact ⟨trivial, hs.symm⟩

/-- Non-emptiness and whitespace-freeness of a rendered field token. -/
theorem renderField_token (f : FieldConstraint) (hne : f.vals ≠ [])
    (hb : ∀ v ∈ f.vals, v < 100) :
    renderField f ≠ [] ∧ ∀ c ∈ renderField f, c.isWhitespace = false := by
  unfold renderField
  split_ifs with hs
  · exact ⟨by simp, by decide⟩
  · have hmem99 : ∀ v ∈ f.vals, v ∈ rangeList 0 99 := by
      intro v hv
      have := hb v hv
      rw [mem_rangeList]
      omega
    constructor
    · cases hv : f.vals with
      | nil => exact absurd hv hne
      | cons v rest =>
        cases rest with
        | nil =>
          show intercalateChar ',' [renderNat v] ≠ []
          unfold intercalateChar
          exact (renderNat_facts v (hmem99 v (hv ▸ List.mem_cons_self _ _))).1
        | cons w rest2 =>
          show intercalateChar ',' (renderNat v :: renderNat w :: rest2.map renderNat) ≠ []
          unfold intercalateChar
          simp
    · intro c hc
      rcases mem_intercalateChar ',' _ c hc with hcc | ⟨l, hl, hcl⟩
      · rw [hcc]; decide
      · obtain ⟨v, hv, hveq⟩ := List.mem_map.mp hl
        rw [← hveq] at hcl
        exact (renderNat_facts v (hmem99 v hv)).2.2 c hcl

theorem pieceRender_seconds : ∀ v ∈ rangeList 0 59,
    parsePiece secondsDomain (renderNat v) = .ok ([v], false) := by decide

theorem pieceRender_minutes : ∀ v ∈ rangeList 0 59,
    parsePiece minutesDomain (renderNat v) = .ok ([v], false) := by decide

theorem pieceRender_hours : ∀ v ∈ rangeList 0 23,
    parsePiece hoursDomain (renderNat v) = .ok ([v], false) := by decide

theorem pieceRender_dom : ∀ v ∈ rangeList 1 31,
    parsePiece domDomain (renderNat v) = .ok ([v], false) := by decide

theorem pieceRender_months : ∀ v ∈ rangeList 1 12,
    parsePiece monthsDomain (renderNat v) = .ok ([v], false) := by decide

theorem pieceRender_dow : ∀ v ∈ rangeList 0 6,
    parsePiece dowDomain (renderNat v) = .ok ([v], false) := by decide

theorem starParse_seconds : parseField secondsDomain ['*'] = .ok ⟨rangeList 0 59, true⟩ := by
  decide

theorem starParse_minutes : parseField minutesDomain ['*'] = .ok ⟨rangeList 0 59, true⟩ := by
  decide

theorem starParse_hours : parseField hoursDomain ['*'] = .ok ⟨rangeList 0 23, true⟩ := by
  decide

theorem starParse_dom : parseField domDomain ['*'] = .ok ⟨rangeList 1 31, true⟩ := by
  decide

theorem starParse_months : parseField monthsDomain ['*'] = .ok ⟨rangeList 1 12, true⟩ := by
  decide

theorem starParse_dow : parseField dowDomain ['*'] = .ok ⟨rangeList 0 6, true⟩ := by
  decide

theorem parseField_render_seconds (f : FieldConstraint) (h : FieldOK 0 59 f) :
    parseField secondsDomain (renderField f) = .ok f :=
  parseField_render secondsDomain f h (by decide) pieceRender_seconds starParse_seconds

theorem parseField_render_minutes (f : FieldConstraint) (h : FieldOK 0 59 f) :
    parseField minutesDomain (renderField f) = .ok f :=
  parseField_render minutesDomain f h (by decide) pieceRender_minutes starParse_minutes

theorem parseField_render_hours (f : FieldConstraint) (h : FieldOK 0 23 f) :
    parseField hoursDomain (renderField f) = .ok f :=
  parseField_render hoursDomain f h (by decide) pieceRender_hours starParse_hours

theorem parseField_render_dom (f : FieldConstraint) (h : FieldOK 1 31 f) :
    parseField domDomain (renderField f) = .ok f :=
  parseField_render domDomain f h (by decide) pieceRender_dom starParse_dom

theorem parseField_render_months (f : FieldConstraint) (h : FieldOK 1 12 f) :
    parseField monthsDomain (renderField f) = .ok f :=
  parseField_render monthsDomain f h (by decide) pieceRender_months starParse_months

theorem parseField_render_dow (f : FieldConstraint) (h : FieldOK 0 6 f) :
    parseField dowDomain (renderField f) = .ok f :=
  parseField_render dowDomain f h (by decide) pieceRender_dow starParse_dow

theorem fieldOK_token (lo chi : Nat) (f : FieldConstraint) (h : FieldOK lo chi f)
    (hchi : chi < 100) :
    renderField f ≠ [] ∧ ∀ c ∈ renderField f, c.isWhitespace = false := by
  apply renderField_token f h.2.1
  intro v hv
  have := h.2.2.1 v hv
  omega

theorem parseCron_render (policy : Seconds) (txt : List Char) (P : Pattern)
    (h : parseCron policy txt = .ok P) :
    parseCron policy (renderPattern P) = .ok P := by
  unfold parseCron at h
  split at h
  · -- five tokens
    split at h
    · exact absurd h (by simp)
    · rename_i hpol
      split at h
      · exact absurd h (by simp)
      · rename_i f1 hf1
        split at h
        · exact absurd h (by simp)
        · rename_i f2 hf2
          split at h
          · exact absurd h (by simp)
          · rename_i f3 hf3
            split at h
            · exact absurd h (by simp)
            · rename_i f4 hf4
              split at h
              · exact absurd h (by simp)
              · rename_i f5 hf5
                simp only [Except.ok.injEq] at h
                subst h
                have k1 := parseField_inv minutesDomain domOK_minutes _ f1 hf1
                have k2 := parseField_inv hoursDomain domOK_hours _ f2 hf2
                have k3 := parseField_inv domDomain domOK_dom _ f3 hf3
                have k4 := parseField_inv monthsDomain domOK_months _ f4 hf4
                have k5 := parseField_inv dowDomain domOK_dow _ f5 hf5
                have r1 := parseField_render_minutes f1 k1
                have r2 := parseField_render_hours f2 k2
                have r3 := parseField_render_dom f3 k3
                have r4 := parseField_render_months f4 k4
                have r5 := parseField_render_dow f5 k5
                have w1 := fieldOK_token 0 59 f1 k1 (by omega)
                have w2 := fieldOK_token 0 23 f2 k2 (by omega)
                have w3 := fieldOK_token 1 31 f3 k3 (by omega)
                have w4 := fieldOK_token 1 12 f4 k4 (by omega)
                have w5 := fieldOK_token 0 6 f5 k5 (by omega)
                have hsw : splitWs (intercalateChar ' '
                    [renderField f1, renderField f2, renderField f3,
                     renderField f4, renderField f5]) =
                    [renderField f1, renderField f2, renderField f3,
                     renderField f4, renderField f5] := by
                  apply splitWs_intercalate _ (by simp)
                  intro t ht
                  simp only [List.mem_cons, List.not_mem_nil, or_false] at ht
                  rcases ht with rfl | rfl | rfl | rfl | rfl
                  · exact w1
                  · exact w2
                  · exact w3
                  · exact w4
                  · exact w5
                show parseCron policy (renderPattern ⟨none, f1, f2, f3, f4, f5⟩) = _
                simp only [renderPattern, parseCron, hsw]
                rw [if_neg hpol, r1, r2, r3, r4, r5]
  · -- six tokens
    split at h
    · exact absurd h (by simp)
    · rename_i hpol
      split at h
      · exact absurd h (by simp)
      · rename_i f0 hf0
        split at h
        · exact absurd h (by simp)
        · rename_i f1 hf1
          split at h
          · exact absurd h (by simp)
          · rename_i f2 hf2
            split at h
            · exact absurd h (by simp)
            · rename_i f3 hf3
              split at h
              · exact absurd h (by simp)
              · rename_i f4 hf4
                split at h
                · exact absurd h (by simp)
                · rename_i f5 hf5
                  simp only [Except.ok.injEq] at h
                  subst h
                  have k0 := parseField_inv secondsDomain domOK_seconds _ f0 hf0
                  have k1 := parseField_inv minutesDomain domOK_minutes _ f1 hf1
                  have k2 := parseField_inv hoursDomain domOK_hours _ f2 hf2
                  have k3 := parseField_inv domDomain domOK_dom _ f3 hf3
                  have k4 := parseField_inv monthsDomain domOK_months _ f4 hf4
                  have k5 := parseField_inv dowDomain domOK_dow _ f5 hf5
                  have r0 := parseField_render_seconds f0 k0
                  have r1 := parseField_render_minutes f1 k1
                  have r2 := parseField_render_hours f2 k2
                  have r3 := parseField_render_dom f3 k3
                  have r4 := parseField_render_months f4 k4
                  have r5 := parseField_render_dow f5 k5
                  have w0 := fieldOK_token 0 59 f0 k0 (by omega)
                  have w1 := fieldOK_token 0 59 f1 k1 (by omega)
                  have w2 := fieldOK_token 0 23 f2 k2 (by omega)
                  have w3 := fieldOK_token 1 31 f3 k3 (by omega)
                  have w4 := fieldOK_token 1 12 f4 k4 (by omega)
                  have w5 := fieldOK_token 0 6 f5 k5 (by omega)
                  have hsw : splitWs (intercalateChar ' '
                      [renderField f0, renderField f1, renderField f2, renderField f3,
                       renderField f4, renderField f5]) =
                      [renderField f0, renderField f1, renderField f2, renderField f3,
                       renderField f4, renderField f5] := by
                    apply splitWs_intercalate _ (by simp)
                    intro t ht
                    simp only [List.mem_cons, List.not_mem_nil, or_false] at ht
                    rcases ht with rfl | rfl | rfl | rfl | rfl | rfl
                    · exact w0
                    · exact w1
                    · exact w2
                    · exact w3
                    · exact w4
                    · exact w5
                  show parseCron policy (renderPattern ⟨some f0, f1, f2, f3, f4, f5⟩) = _
                  simp only [renderPattern, parseCron, hsw]
                  rw [if_neg hpol, r0, r1, r2, r3, r4, r5]
  · exact absurd h (by simp)

/-! ## Claim-specific helper lemmas -/

theorem c3Pat_unsat : ∀ u, DateValid u → cronMatch c3Pat u = false := by
  intro u hu
  obtain ⟨h1, h2, h3, h4, h5, h6, h7, h8⟩ := hu
  by_cases hm : u.month = 4
  · have hd : daysInMonth u.year 4 = 30 := by unfold daysInMonth; norm_num
    have hday : (31 == u.day) = false := by
      rw [hm] at h5
      rw [hd] at h5
      rw [beq_eq_false_iff_ne]
      omega
    simp [cronMatch, dayMatch, c3Pat, memB, hday]
  · have hmon : (4 == u.month) = false := by
      rw [beq_eq_false_iff_ne]
      omega
    simp [cronMatch, dayMatch, c3Pat, memB, hmon]

/-! ## Claim theorems -/

/-- C1: for every pattern and every valid starting instant `t`, if the
exclusive next-occurrence search returns `t2`, then `t2` is a strictly later
valid matching instant and no valid instant strictly between `t` and `t2`
matches the pattern. -/
theorem c1_next_occurrence_monotone (P : Pattern) (t t2 : Date) (ht : DateValid t)
    (h : findNextOccurrence P t false = some t2) :
    key t < key t2 ∧ DateValid t2 ∧ cronMatch P t2 = true ∧
      ∀ u, DateValid u → key t < key u → key u < key t2 → cronMatch P u = false := by
  unfold findNextOccurrence at h
  rw [Bool.false_and, if_neg (by simp)] at h
  exact searchFrom_found P searchHorizonSecs t t2 ht h

theorem c1_witness :
    parseCron Seconds.optional ("*/15 * * * *".data) = .ok c1Pat ∧
    DateValid ⟨2024, 1, 1, 0, 7, 0⟩ ∧
    findNextOccurrence c1Pat ⟨2024, 1, 1, 0, 7, 0⟩ false = some ⟨2024, 1, 1, 0, 15, 0⟩ ∧
    (key ⟨2024, 1, 1, 0, 7, 0⟩ < key ⟨2024, 1, 1, 0, 15, 0⟩ ∧
      DateValid ⟨2024, 1, 1, 0, 15, 0⟩ ∧
      cronMatch c1Pat ⟨2024, 1, 1, 0, 15, 0⟩ = true ∧
      ∀ u, DateValid u → key ⟨2024, 1, 1, 0, 7, 0⟩ < key u →
        key u < key ⟨2024, 1, 1, 0, 15, 0⟩ → cronMatch c1Pat u = false) :=
  ⟨by decide, by decide, by decide,
    c1_next_occurrence_monotone c1Pat _ _ (by decide) (by decide)⟩

/-- C2: `next_runs` returns exactly the sequence of `count` sequential
exclusive next-occurrence results, each fed back as the new start, stopping
early with the results collected so far on exhaustion. -/
theorem c2_next_runs_chains (c : WasmCron) (count : Nat) (fromTime : Option JsTimestamp)
    (now : Date) :
    wasmNextRuns c count fromTime now =
      (chainNextOccurrence c.inner count (resolveStart fromTime now)).map toMs := by
  unfold wasmNextRuns
  generalize resolveStart fromTime now = start
  induction count generalizing start with
  | zero => rfl
  | succ k ih =>
    cases h : findNextOccurrence c.inner start false with
    | none => simp [nextRunsLoop, chainNextOccurrence, h]
    | some nxt => simp [nextRunsLoop, chainNextOccurrence, h, ih]

/-- C3: a pattern that matches no valid instant makes the bounded
next-occurrence search terminate with exhaustion (`none`) instead of looping
forever; the day-31-in-April pattern of the witness is such a pattern. -/
theorem c3_unsatisfiable_exhausts (P : Pattern) (t : Date) (inclusive : Bool)
    (ht : DateValid t) (hall : ∀ u, DateValid u → cronMatch P u = false) :
    findNextOccurrence P t inclusive = none := by
  unfold findNextOccurrence
  rw [hall t ht, Bool.and_false]
  rw [if_neg (by simp)]
  exact searchFrom_eq_none P hall searchHorizonSecs t ht

theorem c3_witness :
    parseCron Seconds.optional ("0 0 31 4 *".data) = .ok c3Pat ∧
    DateValid ⟨2024, 1, 1, 0, 0, 0⟩ ∧
    findNextOccurrence c3Pat ⟨2024, 1, 1, 0, 0, 0⟩ false = none :=
  ⟨by decide, by decide, c3_unsatisfiable_exhausts c3Pat _ false (by decide) c3Pat_unsat⟩

/-- C4: validate accepts the 5-field text under the Disallowed policy,
rejects the 6-field text under Disallowed, and rejects the 5-field text
under Required. -/
theorem c4_validate_seconds_policy :
    wasmValidate "0 * * * *" (some ⟨JsVal.str "disallowed"⟩) = true ∧
    wasmValidate "0 * * * * *" (some ⟨JsVal.str "disallowed"⟩) = false ∧
    wasmValidate "0 * * * *" (some ⟨JsVal.str "required"⟩) = false :=
  ⟨by decide, by decide, by decide⟩

/-- C5: re-parsing the canonical text of a successfully parsed pattern under
the same seconds policy succeeds and yields a pattern with identical matching
behavior (in fact the same pattern); the witness shows the canonical
rendering, with the wildcard-step text rendering back as a plain wildcard. -/
theorem c5_pattern_round_trip (policy : Seconds) (txt : List Char) (P : Pattern)
    (h : parseCron policy txt = .ok P) :
    ∃ Q, parseCron policy (renderPattern P) = .ok Q ∧
      ∀ u : Date, cronMatch Q u = cronMatch P u :=
  ⟨P, parseCron_render policy txt P h, fun _ => rfl⟩

theorem c5_witness :
    parseCron Seconds.optional ("*/1 * * * *".data) = .ok c5Pat ∧
    renderPattern c5Pat = "* * * * *".data ∧
    (∃ Q, parseCron Seconds.optional (renderPattern c5Pat) = .ok Q ∧
      ∀ u : Date, cronMatch Q u = cronMatch c5Pat u) :=
  ⟨by decide, by decide,
    c5_pattern_round_trip Seconds.optional ("*/1 * * * *".data) c5Pat (by decide)⟩

/-- C6: the five-field Friday-or-13th pattern, at any valid midnight instant,
matches exactly when the day-of-month is 13 OR the day is a Friday — the
logical OR of the two restricted day constraints, not an AND. -/
theorem c6_day_or_rule :
    parseCron Seconds.optional ("0 0 13 * FRI".data) = .ok c6Pat ∧
    ∀ y mo d : Nat, DateValid ⟨y, mo, d, 0, 0, 0⟩ →
      (cronMatch c6Pat ⟨y, mo, d, 0, 0, 0⟩ = true ↔ (d = 13 ∨ dayOfWeek y mo d = 5)) := by
  refine ⟨by decide, ?_⟩
  have hcm : ∀ u : Date, cronMatch c6Pat u =
      ((u.second == 0) && memB u.minute [0] && memB u.hour [0] &&
        memB u.month (rangeList 1 12) &&
        (memB u.day [13] || memB (dayOfWeek u.year u.month u.day) [5])) := by
    intro u
    rfl
  intro y mo d hv
  obtain ⟨h1, h2, h3, h4, h5, h6, h7, h8⟩ := hv
  dsimp only at h1 h2 h3 h4 h5 h6 h7 h8
  rw [hcm]
  dsimp only
  simp only [memB, Bool.or_false, Bool.and_eq_true, Bool.or_eq_true, beq_iff_eq]
  constructor
  · intro hh
    rcases hh.2 with hh2 | hh2
    · exact Or.inl hh2.symm
    · exact Or.inr hh2.symm
  · intro hh
    refine ⟨⟨⟨⟨trivial, trivial⟩, trivial⟩, by omega⟩, ?_⟩
    rcases hh with hh | hh
    · exact Or.inl hh.symm
    · exact Or.inr hh.symm

theorem c6_witness :
    DateValid ⟨2024, 9, 13, 0, 0, 0⟩ ∧
    (cronMatch c6Pat ⟨2024, 9, 13, 0, 0, 0⟩ = true ↔
      (13 = 13 ∨ dayOfWeek 2024 9 13 = 5)) :=
  ⟨by decide, c6_day_or_rule.2 2024 9 13 (by decide)⟩

/-- C7: the matcher entry point is total: for every constructed cron object
and every JS date value, `is_match` returns a boolean, which is true exactly
when the timestamp converts to a representable instant that the pattern
matches, and false otherwise (including unrepresentable timestamps); no
error escapes. -/
theorem c7_is_match_total (c : WasmCron) (d : JsTimestamp) :
    wasmIsMatch c d = true ↔
      ∃ dt, fromTimestampMillis (castI64 d) = some dt ∧ cronMatch c.inner dt = true := by
  unfold wasmIsMatch isTimeMatching
  cases h : fromTimestampMillis (castI64 d) with
  | none => simp
  | some dt => simp

/-- C8: on every pattern string and every options object whose seconds entry
is absent, undefined, or one of the three valid strings, validate returns
true exactly when construction succeeds. -/
theorem c8_validate_iff_new (p : String) (opts : Option JsOpts) (hg : GoodOpts opts) :
    wasmValidate p opts = exceptOk (wasmNew p opts) := by
  have main : ∀ policy : Seconds,
      exceptOk (match parseCron policy p.data with
        | .error _ => (.error "Invalid cron pattern" : Except String WasmCron)
        | .ok q => .ok ⟨q, (splitWs p.data).length == 6⟩) =
      exceptOk (parseCron policy p.data) := by
    intro policy
    cases hpc : parseCron policy p.data <;> simp [exceptOk]
  cases opts with
  | none =>
    show exceptOk (parseCron Seconds.optional p.data) = _
    unfold wasmNew resolvePolicyNew
    rw [main Seconds.optional]
  | some o =>
    cases o with
    | mk sv =>
      rcases hg with h | h | h | h <;> (simp only [] at h; subst h) <;>
        unfold wasmValidate wasmNew resolvePolicyValidate resolvePolicyNew <;>
        simp only [] <;>
        rw [main]

theorem c8_witness :
    GoodOpts (some ⟨JsVal.str "disallowed"⟩) ∧
    wasmValidate "0 * * * * *" (some ⟨JsVal.str "disallowed"⟩) =
      exceptOk (wasmNew "0 * * * * *" (some ⟨JsVal.str "disallowed"⟩)) :=
  ⟨Or.inr (Or.inr (Or.inr rfl)),
    c8_validate_iff_new "0 * * * * *" (some ⟨JsVal.str "disallowed"⟩)
      (Or.inr (Or.inr (Or.inr rfl)))⟩

/-- C9 counterexample: with `from` an invalid JS date (get_time NaN) — a
timestamp with no corresponding valid instant — `next_run` does NOT behave as
if started from the current wall-clock time: the NaN value is cast to 0 and
the search runs from the Unix epoch instead. -/
theorem c9_nan_not_now :
    wasmNextRun c9Cron (some JsTimestamp.nan) c9Now ≠ wasmNextRun c9Cron none c9Now := by
  decide

/-- C9 (amended): when the saturating i64 cast of the supplied timestamp
cannot be converted to a representable instant, `next_run` and `next_runs`
silently start from the wall-clock `now`; a NaN timestamp however casts to 0
and the search starts from the Unix epoch, not from `now`. -/
theorem c9_fallback_to_now :
    (∀ (c : WasmCron) (t : JsTimestamp) (k : Nat) (now : Date),
        fromTimestampMillis (castI64 t) = none →
        wasmNextRun c (some t) now = wasmNextRun c none now ∧
          wasmNextRuns c k (some t) now = wasmNextRuns c k none now) ∧
      ∀ now : Date, resolveStart (some JsTimestamp.nan) now = ⟨1970, 1, 1, 0, 0, 0⟩ := by
  constructor
  · intro c t k now h
    have hrs : resolveStart (some t) now = resolveStart none now := by
      simp only [resolveStart, h, Option.getD_none]
    unfold wasmNextRun wasmNextRuns
    rw [hrs]
    exact ⟨rfl, rfl⟩
  · intro now
    rfl

theorem c9_fallback_witness :
    fromTimestampMillis (castI64 (JsTimestamp.fin 8500000000000000)) = none ∧
    (wasmNextRun c9Cron (some (JsTimestamp.fin 8500000000000000)) c9Now =
        wasmNextRun c9Cron none c9Now ∧
      wasmNextRuns c9Cron 2 (some (JsTimestamp.fin 8500000000000000)) c9Now =
        wasmNextRuns c9Cron 2 none c9Now) ∧
    resolveStart (some JsTimestamp.nan) c9Now = ⟨1970, 1, 1, 0, 0, 0⟩ :=
  ⟨by decide, c9_fallback_to_now.1 c9Cron _ 2 c9Now (by decide),
    c9_fallback_to_now.2 c9Now⟩

/-- C10: for every successfully constructed cron object, the stored
has_seconds flag is true exactly when the raw pattern text splits into six
whitespace-separated tokens — computed from the raw text, for any options
object, independent of the parsed structure. -/
theorem c10_has_seconds_token_count (p : String) (opts : Option JsOpts) (c : WasmCron)
    (h : wasmNew p opts = .ok c) :
    c.has_seconds = ((splitWs p.data).length == 6) := by
  unfold wasmNew at h
  split at h
  · exact absurd h (by simp)
  · split at h
    · exact absurd h (by simp)
    · simp only [Except.ok.injEq] at h
      rw [← h]

theorem c10_witness :
    wasmNew "0 0 * * * *" none = .ok ⟨c10Pat, true⟩ ∧
    (⟨c10Pat, true⟩ : WasmCron).has_seconds = ((splitWs ("0 0 * * * *").data).length == 6) :=
  ⟨by decide, c10_has_seconds_token_count "0 0 * * * *" none ⟨c10Pat, true⟩ (by decide)⟩

end CW
